import Mathlib

/-!
Verification development for the vsag HNSW prefetch fork.

The development shallowly embeds the repository's code:

* `src/python_bindings/binding.cpp` — CSR sparse-vector ingestion
  (`BuildSparseVectorsFromCSR`), and the error-propagation control flow of
  the `Index::KnnSearch` / `Index::RangeSearch` binding wrappers;
* `src/src/index/hnsw_zparameters.h` — `PrefetchMode`, `HnswParameters`,
  `HnswSearchParameters` with their default field values;
* the HNSW search engine itself (layer-0 bounded best-first search,
  prefetch hinting, tombstoning, serialization) is not part of the
  repository sources; it is modelled from the specification, as marked on
  each such definition.
-/

namespace VSAG

/-! ## Embedding of `hnsw_zparameters.h` -/

/-- Prefetch optimization modes, from `enum class PrefetchMode` in
`hnsw_zparameters.h`: `DISABLED = 0`, `HARDCODED = 1`, `CUSTOM = 2`. -/
inductive PrefetchMode where
  | DISABLED
  | HARDCODED
  | CUSTOM
deriving Repr, DecidableEq

/-- Vector data types. `data_type.h` is not part of the sources; modelled
from the spec, which only requires a float data type to exist as the
default (`DataTypes::DATA_TYPE_FLOAT` in `hnsw_zparameters.h`). -/
inductive DataTypes where
  | DATA_TYPE_FLOAT
  | DATA_TYPE_INT8
deriving Repr, DecidableEq

/-- Build parameters from `struct HnswParameters` in `hnsw_zparameters.h`.
`space` is an external collaborator and carries no default; `max_degree`
and `ef_construction` are required fields without default initializers.
All remaining fields carry the default member initializers of the header. -/
structure HnswParameters where
  max_degree : Int
  ef_construction : Int
  use_conjugate_graph : Bool := false
  use_static : Bool := false
  normalize : Bool := false
  use_reversed_edges : Bool := false
  type : DataTypes := DataTypes.DATA_TYPE_FLOAT
  prefetch_mode : PrefetchMode := PrefetchMode.HARDCODED
deriving Repr, DecidableEq

/-- Search parameters from `struct HnswSearchParameters` in
`hnsw_zparameters.h`. The C++ member `skip_ratio{0.9}` is modelled as the
rational `9/10` (field renamed `skipRatioVal`); `ef_search` and
`use_conjugate_graph_search` are required fields without defaults. -/
structure HnswSearchParameters where
  ef_search : Int
  skipRatioVal : ℚ := 9/10
  use_conjugate_graph_search : Bool
  prefetch_mode : PrefetchMode := PrefetchMode.HARDCODED
  prefetch_stride_codes : Nat := 1
  prefetch_depth_codes : Nat := 1
  prefetch_stride_visit : Nat := 3
deriving Repr, DecidableEq

/-- Construct an `HnswParameters` value supplying only the required fields,
mirroring the protected default constructor plus factory population of the
required members in the header. -/
def defaultHnswParameters (md efc : Int) : HnswParameters :=
  { max_degree := md, ef_construction := efc }

/-- Construct an `HnswSearchParameters` value supplying only the required
fields. -/
def defaultHnswSearchParameters (efs : Int) (ucgs : Bool) : HnswSearchParameters :=
  { ef_search := efs, use_conjugate_graph_search := ucgs }

/-! ## Embedding of `BuildSparseVectorsFromCSR` (binding.cpp, lines 73-137)

The binding takes three 1-dimensional arrays (the Lean embedding uses
lists, which are inherently 1-dimensional, so the `ndim != 1` guard of the
C++ code has no counterpart).  Values are opaque to the function — only
their count matters — so the value type is a parameter. -/

/-- Error values thrown by `BuildSparseVectorsFromCSR` via
`std::invalid_argument`.  `tooFewPointers` is the guard
`buf_ptr.shape[0] < 2`; the remaining four are the malformed-sparse-input
conditions. -/
inductive CsrError where
  | tooFewPointers
  | indicesLenMismatch
  | valuesLenMismatch
  | firstPointerNonzero
  | nonMonotonic (i : Nat)
deriving Repr, DecidableEq

/-- One sparse vector: `vsag::SparseVector` as filled by the binding
(`len_`, `ids_`, `vals_`), with the pointer slices materialized as list
slices. -/
structure SparseVector (α : Type) where
  len_ : Nat
  ids_ : List Nat
  vals_ : List α
deriving Repr, DecidableEq

/-- The batch returned by `BuildSparseVectorsFromCSR` (struct
`SparseVectors` in binding.cpp). -/
structure SparseVectors (α : Type) where
  sparse_vectors : List (SparseVector α)
  num_elements : Nat
  num_non_zeros : Nat
deriving Repr, DecidableEq

/-- Embedding of `BuildSparseVectorsFromCSR` (binding.cpp:73-137).
Checks, in the order of the C++ code: at least two index pointers;
`indices` length equal to `index_pointers[last]`; `values` length equal to
`index_pointers[last]`; `index_pointers[0] = 0`; pointers non-decreasing.
On success builds one sparse vector per CSR row by slicing `indices` and
`values`. -/
def BuildSparseVectorsFromCSR {α : Type} (index_pointers indices : List Nat)
    (values : List α) : Except CsrError (SparseVectors α) :=
  if index_pointers.length < 2 then .error .tooFewPointers
  else
    let num_elements := index_pointers.length - 1
    let nnz := index_pointers.getD num_elements 0
    if indices.length ≠ nnz then .error .indicesLenMismatch
    else if values.length ≠ nnz then .error .valuesLenMismatch
    else if index_pointers.getD 0 0 ≠ 0 then .error .firstPointerNonzero
    else
      match (List.range num_elements).find?
          (fun j => index_pointers.getD (j+1) 0 < index_pointers.getD j 0) with
      | some j => .error (.nonMonotonic (j+1))
      | none =>
          .ok { sparse_vectors :=
                  (List.range num_elements).map (fun i =>
                    let start := index_pointers.getD i 0
                    let len := index_pointers.getD (i+1) 0 - start
                    { len_ := len
                      ids_ := (indices.drop start).take len
                      vals_ := (values.drop start).take len }),
                num_elements := num_elements,
                num_non_zeros := nnz }

/-- Whether an `Except` result is an error. -/
def isErr {ε α : Type} : Except ε α → Bool
  | .error _ => true
  | .ok _ => false

/-! ## Embedding of the binding wrappers' error propagation
(binding.cpp, `Index::KnnSearch` lines 269-290 and `Index::RangeSearch`
lines 325-351)

The underlying `index_->KnnSearch` / `index_->RangeSearch` calls live in
the external vsag library; the wrappers are embedded as functions of the
underlying call's result.  The wrapper's job that matters here is the
control flow: `Index::KnnSearch` throws `std::runtime_error` with the
error message when the underlying call fails, while `Index::RangeSearch`
only has an `if (result.has_value())` branch with no else — on failure it
falls through and returns the default-constructed (empty) arrays. -/

/-- An error value of the underlying vsag call (`vsag::Error`), carrying a
message. -/
structure VsagError where
  message : String
deriving Repr, DecidableEq

/-- Embedding of the result-handling of `Index::KnnSearch`
(binding.cpp:269-290): on success the ids and distances are copied out; on
failure `throw std::runtime_error(result.error().message)` surfaces the
error (modelled as `Except.error`).  The fixed-`k` padding of the output
arrays is orthogonal to the propagation and is elided. -/
def bindingKnnSearch (inner : Except VsagError (List (Int × ℚ))) :
    Except String (List Int × List ℚ) :=
  match inner with
  | .ok res => .ok (res.map Prod.fst, res.map Prod.snd)
  | .error e => .error e.message

/-- Embedding of the result-handling of `Index::RangeSearch`
(binding.cpp:325-351): the copy happens inside
`if (auto result = ...; result.has_value()) { ... }` and there is no else
branch, so a failing underlying call falls through to
`return py::make_tuple(labels, dists)` with the default-constructed
(empty) arrays — a normal result. -/
def bindingRangeSearch (inner : Except VsagError (List (Int × ℚ))) :
    Except String (List Int × List ℚ) :=
  match inner with
  | .ok res => .ok (res.map Prod.fst, res.map Prod.snd)
  | .error _ => .ok ([], [])

end VSAG

namespace VSAG

/-! ## Spec-modelled search engine

The HNSW core (ProximityGraph, SearchEngine, PrefetchController,
serialization, tombstoning) is not among the repository sources; only its
parameter types and callers are.  The following definitions are modelled
from the spec, sections 3, 4.3, 4.4 and 6.  The upper-layer greedy descent
only selects the node at which the layer-0 bounded best-first search
starts; the model therefore works on the base layer, whose adjacency the
spec's invariant declares to span every live node, with the descent's
outcome represented by the graph's entry point. -/

/-- Modelled from the spec: a ProximityGraph node — external id, lazy
tombstone flag, and base-layer neighbor list of internal indices
(spec section 3, "Node"; deletion is a tombstone, never a compaction). -/
structure Node where
  id : Nat
  deleted : Bool
  nbrs : List Nat
deriving Repr, DecidableEq

/-- Modelled from the spec: the ProximityGraph — an entry point and the
arena of nodes, a node's internal index being its position
(spec section 3, "Graph"). -/
structure Graph where
  entry : Nat
  nodes : List Node
deriving Repr, DecidableEq

/-- Whether internal index `i` names a live (non-tombstoned) node. -/
def Graph.live (g : Graph) (i : Nat) : Bool :=
  match g.nodes.get? i with
  | some nd => !nd.deleted
  | none => false

/-- Internal indices of the live nodes. -/
def Graph.liveIndices (g : Graph) : List Nat :=
  (List.range g.nodes.length).filter (fun i => g.live i)

/-- Base-layer neighbor list of internal index `i`. -/
def Graph.nbrsOf (g : Graph) (i : Nat) : List Nat :=
  match g.nodes.get? i with
  | some nd => nd.nbrs
  | none => []

/-- External id of internal index `i`. -/
def Graph.idOf (g : Graph) (i : Nat) : Nat :=
  match g.nodes.get? i with
  | some nd => nd.id
  | none => 0

/-- Candidate order: ascending distance, ties broken by ascending internal
index (spec section 4.3, determinism of extraction).  `d` is the distance
from the fixed query, supplied by the external codec. -/
def cle (d : Nat → ℚ) (a b : Nat) : Prop :=
  d a < d b ∨ (d a = d b ∧ a ≤ b)

instance (d : Nat → ℚ) (a b : Nat) : Decidable (cle d a b) :=
  inferInstanceAs (Decidable (_ ∨ _))

instance (d : Nat → ℚ) : IsTrans Nat (cle d) where
  trans a b c hab hbc := by
    rcases hab with h1 | ⟨h1, h1'⟩ <;> rcases hbc with h2 | ⟨h2, h2'⟩
    · exact Or.inl (h1.trans h2)
    · exact Or.inl (h2 ▸ h1)
    · exact Or.inl (h1 ▸ h2)
    · exact Or.inr ⟨h1.trans h2, h1'.trans h2'⟩

instance (d : Nat → ℚ) : IsTotal Nat (cle d) where
  total a b := by
    rcases lt_trichotomy (d a) (d b) with h | h | h
    · exact Or.inl (Or.inl h)
    · rcases Nat.le_total a b with h' | h'
      · exact Or.inl (Or.inr ⟨h, h'⟩)
      · exact Or.inr (Or.inr ⟨h.symm, h'⟩)
    · exact Or.inr (Or.inl h)

/-- Modelled from the spec: the PrefetchController configuration as the
spec's sum type (spec section 3, "PrefetchMode": `Disabled`, `Hardcoded`,
`Custom{stride_codes, depth_codes, stride_visit}`). -/
inductive PrefetchConfig where
  | Disabled
  | Hardcoded
  | Custom (strideCodes depthCodes strideVisit : Nat)
deriving Repr, DecidableEq

/-- Modelled from the spec: the effective prefetch parameters
`(stride_codes, depth_codes, stride_visit)` of a configuration, given the
per-vector byte size.  `Hardcoded` computes
`max(1, vector_byte_size / 128 - 1)` with depth 1 (spec section 4.4);
`Disabled` issues no hints. -/
def effectivePrefetch (byteSize : Nat) : PrefetchConfig → Option (Nat × Nat × Nat)
  | .Disabled => none
  | .Hardcoded => some (max 1 (byteSize / 128 - 1), 1, 3)
  | .Custom sc dc sv => some (sc, dc, sv)

/-- Modelled from the spec: the prefetch hints issued while expanding one
candidate whose neighbor list is `ns` (spec section 4.4): per neighbor
position, `depth_codes` code-region hints for the neighbor `stride_codes`
positions ahead, and one visited-metadata hint for the neighbor
`stride_visit` positions ahead.  A hint is a pair (kind, target): kind 0
is a code hint (one per prefetched cache line), kind 1 a metadata hint. -/
def hintsFor (pc : Option (Nat × Nat × Nat)) (ns : List Nat) : List (Nat × Nat) :=
  match pc with
  | none => []
  | some (sc, dc, sv) =>
      (List.range ns.length).flatMap (fun i =>
        (match ns.get? (i + sc) with
         | some t => (List.range dc).map (fun j => (0, t + j))
         | none => []) ++
        (match ns.get? (i + sv) with
         | some t => [(1, t)]
         | none => []))

/-- Modelled from the spec: the layer-0 search state (spec section 4.3) —
the visited set (marked at discovery, preventing re-expansion), the
min-heap frontier and the bounded best-heap, both kept as
candidate-order-sorted lists, plus the log of prefetch hints issued so
far. -/
structure SState where
  visited : List Nat
  frontier : List Nat
  best : List Nat
  hints : List (Nat × Nat)
deriving Repr, DecidableEq

/-- Modelled from the spec: whether a scored candidate qualifies for the
heaps — the best heap is below `ef`, or the candidate is closer than the
current worst accepted (spec section 4.3). -/
def qualifies (d : Nat → ℚ) (ef : Nat) (best : List Nat) (v : Nat) : Bool :=
  decide (best.length < ef) ||
    (match best.getLast? with
     | some w => decide (d v < d w)
     | none => true)

/-- Modelled from the spec: scoring one neighbor `v` during expansion
(spec section 4.3): tombstoned nodes are excluded from traversal; an
unvisited live neighbor is marked visited and, when it qualifies, inserted
into both heaps, the best heap evicting its worst element beyond `ef`. -/
def scoreNbr (g : Graph) (d : Nat → ℚ) (ef : Nat) : SState → Nat → SState
  | ⟨vis, fr, be, hl⟩, v =>
    if v ∈ vis ∨ ¬ g.live v then ⟨vis, fr, be, hl⟩
    else if qualifies d ef be v then
      ⟨v :: vis, fr.orderedInsert (cle d) v, (be.orderedInsert (cle d) v).take ef, hl⟩
    else ⟨v :: vis, fr, be, hl⟩

/-- Modelled from the spec: the standard termination rule — the best
unexplored frontier distance exceeds the current worst accepted distance,
read off the best heap (spec section 4.3). -/
def stopCond (d : Nat → ℚ) (best : List Nat) (c : Nat) : Bool :=
  match best.getLast? with
  | some w => decide (d w < d c)
  | none => false

/-- Modelled from the spec: the skip heuristic — skip expanding a
candidate whose distance divided by the current worst accepted distance
exceeds `skip_ratio` (spec section 4.3). -/
def skipCond (d : Nat → ℚ) (sr : ℚ) (best : List Nat) (c : Nat) : Bool :=
  match best.getLast? with
  | some w => decide (sr < d c / d w)
  | none => false

/-- Modelled from the spec: the `ef`-bounded best-first loop over the base
layer (spec section 4.3), with fuel for termination.  Each iteration pops
the frontier's nearest candidate; it stops on the standard termination
rule, skips low-value expansions per `skip_ratio`, and otherwise expands
the candidate, emitting the prefetch hints of the active configuration
alongside the expansion (spec section 4.4). -/
def searchLoop (g : Graph) (d : Nat → ℚ) (ef : Nat) (sr : ℚ)
    (pc : Option (Nat × Nat × Nat)) : Nat → SState → SState
  | 0, s => s
  | (_+1), ⟨vis, [], be, hl⟩ => ⟨vis, [], be, hl⟩
  | (fuel+1), ⟨vis, c :: rest, be, hl⟩ =>
    if stopCond d be c then ⟨vis, c :: rest, be, hl⟩
    else if skipCond d sr be c then
      searchLoop g d ef sr pc fuel ⟨vis, rest, be, hl⟩
    else
      searchLoop g d ef sr pc fuel
        ((g.nbrsOf c).foldl (scoreNbr g d ef)
          ⟨vis, rest, be, hl ++ hintsFor pc (g.nbrsOf c)⟩)

/-- Modelled from the spec: the initial layer-0 state.  The entry point is
marked visited; it seeds the frontier and the best heap when live
(tombstoned nodes never enter traversal or results). -/
def initState (g : Graph) (ef : Nat) : SState :=
  { visited := [g.entry],
    frontier := if g.live g.entry then [g.entry] else [],
    best := (if g.live g.entry then [g.entry] else []).take ef,
    hints := [] }

/-- Modelled from the spec: run the layer-0 bounded best-first search to
completion.  The fuel `nodes.length + 1` dominates the loop measure, since
every node is discovered (and hence popped) at most once. -/
def baseSearch (g : Graph) (d : Nat → ℚ) (ef : Nat) (sr : ℚ)
    (pc : Option (Nat × Nat × Nat)) : SState :=
  searchLoop g d ef sr pc (g.nodes.length + 1) (initState g ef)

/-- Modelled from the spec: the internal indices `KnnSearch` extracts —
the top `k` of the best heap, already sorted ascending by distance with
ties broken by ascending internal index (spec section 4.3). -/
def knnCandidates (g : Graph) (d : Nat → ℚ) (k ef : Nat) (sr : ℚ)
    (cfg : PrefetchConfig) (byteSize : Nat) : List Nat :=
  (baseSearch g d ef sr (effectivePrefetch byteSize cfg)).best.take k

/-- Modelled from the spec: `KnnSearch` — the extracted candidates as
(external id, distance) result rows (spec section 4.3). -/
def KnnSearch (g : Graph) (d : Nat → ℚ) (k ef : Nat) (sr : ℚ)
    (cfg : PrefetchConfig) (byteSize : Nat) : List (Nat × ℚ) :=
  (knnCandidates g d k ef sr cfg byteSize).map (fun i => (g.idOf i, d i))

/-- Modelled from the spec: `RangeSearch` — the same traversal machinery,
with the fixed-`k` extraction replaced by the acceptance test
`distance ≤ threshold` (spec section 4.3). -/
def RangeSearch (g : Graph) (d : Nat → ℚ) (t : ℚ) (ef : Nat) (sr : ℚ)
    (cfg : PrefetchConfig) (byteSize : Nat) : List (Nat × ℚ) :=
  (((baseSearch g d ef sr (effectivePrefetch byteSize cfg)).best.filter
      (fun i => decide (d i ≤ t))).map (fun i => (g.idOf i, d i)))

/-- Modelled from the spec: `Remove(id)` tombstones the live node carrying
the external id, failing with `NotFoundError` on an absent or
already-tombstoned id; no compaction or eager relinking happens
(spec sections 4.2 and 7). -/
def removeOne (g : Graph) (x : Nat) : Except String Graph :=
  match (List.range g.nodes.length).find? (fun i => g.live i && (g.idOf i == x)) with
  | none => .error "NotFoundError"
  | some i =>
      match g.nodes.get? i with
      | none => .error "NotFoundError"
      | some nd => .ok { g with nodes := g.nodes.set i { nd with deleted := true } }

/-! ## Spec-modelled serialization (spec section 6)

The snapshot contains the graph topology — entry point, per-node adjacency
— and the id mappings, flattened to a list of numbers; build configuration
and on-disk byte framing are outside the modelled core. -/

/-- Modelled from the spec: encode one node as
`id :: deleted :: degree :: neighbors`. -/
def encodeNode (nd : Node) : List Nat :=
  nd.id :: (cond nd.deleted 1 0) :: nd.nbrs.length :: nd.nbrs

/-- Modelled from the spec: decode one node from the front of a snapshot,
failing cleanly on truncation. -/
def decodeNode : List Nat → Option (Node × List Nat)
  | i :: df :: ln :: rest =>
      if ln ≤ rest.length then
        some ({ id := i, deleted := df == 1, nbrs := rest.take ln }, rest.drop ln)
      else none
  | _ => none

/-- Modelled from the spec: decode `n` consecutive nodes. -/
def decodeNodes : Nat → List Nat → Option (List Node × List Nat)
  | 0, rest => some ([], rest)
  | (n+1), rest => do
      let (nd, r1) ← decodeNode rest
      let (nds, r2) ← decodeNodes n r1
      pure (nd :: nds, r2)

/-- Modelled from the spec: `Serialize` — entry point, node count, then
the encoded nodes. -/
def serialize (g : Graph) : List Nat :=
  g.entry :: g.nodes.length :: g.nodes.flatMap encodeNode

/-- Modelled from the spec: `Deserialize` — fails cleanly (returns `none`)
on a truncated or corrupt snapshot, never producing partial graph state. -/
def deserialize (bs : List Nat) : Option Graph :=
  match bs with
  | e :: n :: rest =>
      match decodeNodes n rest with
      | some (nds, []) => some { entry := e, nodes := nds }
      | _ => none
  | _ => none

/-- The concrete batch built from `index_pointers = [0,2,5,6]`. -/
def csrRowsExample : SparseVectors Nat :=
  { sparse_vectors := [ { len_ := 2, ids_ := [0,1], vals_ := [9,9] },
                        { len_ := 3, ids_ := [0,1,2], vals_ := [9,9,9] },
                        { len_ := 1, ids_ := [0], vals_ := [9] } ],
    num_elements := 3, num_non_zeros := 6 }

/-! ## Search-state invariants and fixtures -/

/-- Structural invariant of the layer-0 search state: the best heap is
candidate-order sorted, both heaps hold only live, already-discovered,
duplicate-free candidates, the best heap respects the `ef` bound, and the
entry point has been discovered. -/
def BInv (g : Graph) (d : Nat → ℚ) (ef : Nat) (s : SState) : Prop :=
  List.Sorted (cle d) s.best ∧
  (∀ x ∈ s.best, g.live x = true) ∧
  (∀ x ∈ s.frontier, g.live x = true) ∧
  s.best ⊆ s.visited ∧
  s.frontier ⊆ s.visited ∧
  s.best.Nodup ∧
  s.frontier.Nodup ∧
  s.best.length ≤ ef ∧
  g.entry ∈ s.visited

/-- Reachability from the entry point along base-layer edges through live
nodes (the spec's invariant: the base layer spans every live node and is
reachable from the entry point). -/
inductive ReachLive (g : Graph) : Nat → Prop
  | base : ReachLive g g.entry
  | step {u v : Nat} : ReachLive g u → g.live u = true → v ∈ g.nbrsOf u →
      ReachLive g v

/-- Completeness invariant of a not-yet-full search: every discovered live
node sits in the best heap (nothing was evicted or refused), and every
discovered live node no longer on the frontier has had all its live
neighbors discovered. -/
def NFInv (g : Graph) (s : SState) : Prop :=
  (∀ x ∈ s.visited, g.live x = true → x ∈ s.best) ∧
  (∀ u ∈ s.visited, g.live u = true → u ∉ s.frontier →
    ∀ v ∈ g.nbrsOf u, g.live v = true → v ∈ s.visited)

/-- Loop measure: pending frontier entries plus undiscovered live nodes. -/
def sMeasure (g : Graph) (s : SState) : Nat :=
  s.frontier.length + (g.liveIndices.filter (fun i => decide (i ∉ s.visited))).length

/-- A three-node chain used as a concrete fixture: live internal indices
0 — 1 — 2 with external ids 100, 101, 102. -/
def chainGraph : Graph :=
  { entry := 0,
    nodes := [ { id := 100, deleted := false, nbrs := [1] },
               { id := 101, deleted := false, nbrs := [0, 2] },
               { id := 102, deleted := false, nbrs := [1] } ] }

/-- Distances from a fixed query to the chain fixture: the middle node is
barely worse than the current worst when it is popped, so the default
skip ratio rejects its expansion. -/
def chainDist : Nat → ℚ :=
  fun i => if i = 0 then 0 else if i = 1 then 19/2 else 1

/-- The chain fixture with node 2 (external id 102) tombstoned, as
produced by `removeOne chainGraph 102`. -/
def chainGraphRemoved : Graph :=
  { entry := 0,
    nodes := [ { id := 100, deleted := false, nbrs := [1] },
               { id := 101, deleted := false, nbrs := [0, 2] },
               { id := 102, deleted := true, nbrs := [1] } ] }

end VSAG

namespace VSAG

/-! ## Claim C10 -/

/-- C10: sparse ingestion rejects every CSR input whose `index_pointers`
array has fewer than two entries with an invalid-argument error
(`tooFewPointers`), instead of producing an empty batch. -/
theorem C10_csr_too_few_pointers {α : Type} (ip ind : List Nat) (val : List α)
    (h : ip.length < 2) :
    BuildSparseVectorsFromCSR ip ind val = .error .tooFewPointers := by
  unfold BuildSparseVectorsFromCSR
  rw [if_pos h]

/-- C10 witness: the zero-element batch `index_pointers = [0]` with empty
`indices` and `values` is rejected. -/
theorem C10_witness : ([0] : List Nat).length < 2 ∧
    BuildSparseVectorsFromCSR [0] [] ([] : List Nat) = .error .tooFewPointers :=
  ⟨by decide, C10_csr_too_few_pointers [0] [] [] (by decide)⟩

/-! ## Claim C2 -/

/-- C2: for every 1-dimensional CSR triple with at least two pointer
entries, `BuildSparseVectorsFromCSR` rejects the input with a
malformed-sparse-input error if and only if `index_pointers[0] ≠ 0`, or
some `index_pointers[i] < index_pointers[i-1]`, or the length of `indices`
or of `values` differs from `index_pointers[last]`; every input satisfying
all the conditions is accepted, and the error is never the
too-few-pointers one. -/
theorem C2_csr_malformed_iff {α : Type} (ip ind : List Nat) (val : List α)
    (h2 : 2 ≤ ip.length) :
    (isErr (BuildSparseVectorsFromCSR ip ind val) = true ↔
      (ip.getD 0 0 ≠ 0 ∨
       (∃ i, i < ip.length - 1 ∧ ip.getD (i+1) 0 < ip.getD i 0) ∨
       ind.length ≠ ip.getD (ip.length - 1) 0 ∨
       val.length ≠ ip.getD (ip.length - 1) 0)) ∧
    BuildSparseVectorsFromCSR ip ind val ≠ .error .tooFewPointers := by
  unfold BuildSparseVectorsFromCSR
  rw [if_neg (by omega)]
  constructor
  · by_cases hc : ind.length ≠ ip.getD (ip.length - 1) 0
    · rw [if_pos hc]
      simp only [isErr, true_iff]
      exact Or.inr (Or.inr (Or.inl hc))
    · rw [if_neg hc]
      by_cases hd : val.length ≠ ip.getD (ip.length - 1) 0
      · rw [if_pos hd]
        simp only [isErr, true_iff]
        exact Or.inr (Or.inr (Or.inr hd))
      · rw [if_neg hd]
        by_cases ha : ip.getD 0 0 ≠ 0
        · rw [if_pos ha]
          simp only [isErr, true_iff]
          exact Or.inl ha
        · rw [if_neg ha]
          cases hf : (List.range (ip.length - 1)).find?
              (fun j => decide (ip.getD (j+1) 0 < ip.getD j 0)) with
          | some j =>
            simp only [hf, isErr, true_iff]
            refine Or.inr (Or.inl ⟨j, ?_, ?_⟩)
            · have := List.mem_range.mp (List.mem_of_find?_eq_some hf)
              omega
            · have := List.find?_some hf
              exact of_decide_eq_true this
          | none =>
            constructor
            · intro hcontra
              simp [isErr] at hcontra
            · rintro (h | ⟨i, hi, hlt⟩ | h | h)
              · exact absurd h ha
              · have := List.find?_eq_none.mp hf i (List.mem_range.mpr hi)
                exact absurd (decide_eq_true hlt) this
              · exact absurd h hc
              · exact absurd h hd
  · by_cases hc : ind.length ≠ ip.getD (ip.length - 1) 0
    · rw [if_pos hc]; simp
    · rw [if_neg hc]
      by_cases hd : val.length ≠ ip.getD (ip.length - 1) 0
      · rw [if_pos hd]; simp
      · rw [if_neg hd]
        by_cases ha : ip.getD 0 0 ≠ 0
        · rw [if_pos ha]; simp
        · rw [if_neg ha]
          cases hf : (List.range (ip.length - 1)).find?
              (fun j => decide (ip.getD (j+1) 0 < ip.getD j 0)) with
          | some j => simp [hf]
          | none => simp [hf]

/-- C2 witness: the accepted triple `index_pointers = [0,2,5,6]` with six
indices and six values satisfies the characterization, and a rejected
variant with a decreasing pointer pair does too. -/
theorem C2_witness : 2 ≤ ([0,2,5,6] : List Nat).length ∧
    ((isErr (BuildSparseVectorsFromCSR [0,2,5,6] [0,1,0,1,2,0] ([9,9,9,9,9,9] : List Nat)) = true ↔
      (([0,2,5,6] : List Nat).getD 0 0 ≠ 0 ∨
       (∃ i, i < ([0,2,5,6] : List Nat).length - 1 ∧
         ([0,2,5,6] : List Nat).getD (i+1) 0 < ([0,2,5,6] : List Nat).getD i 0) ∨
       ([0,1,0,1,2,0] : List Nat).length ≠ ([0,2,5,6] : List Nat).getD (([0,2,5,6] : List Nat).length - 1) 0 ∨
       ([9,9,9,9,9,9] : List Nat).length ≠ ([0,2,5,6] : List Nat).getD (([0,2,5,6] : List Nat).length - 1) 0)) ∧
     BuildSparseVectorsFromCSR [0,2,5,6] [0,1,0,1,2,0] ([9,9,9,9,9,9] : List Nat) ≠
       .error .tooFewPointers) :=
  ⟨by decide, C2_csr_malformed_iff [0,2,5,6] [0,1,0,1,2,0] [9,9,9,9,9,9] (by decide)⟩

/-! ## Claim C5 -/

/-- C5: every accepted CSR input yields a batch of
`index_pointers.length - 1` sparse vectors whose `i`-th member has nonzero
count `index_pointers[i+1] - index_pointers[i]`. -/
theorem C5_csr_row_counts {α : Type} (ip ind : List Nat) (val : List α)
    (svs : SparseVectors α) (hok : BuildSparseVectorsFromCSR ip ind val = .ok svs) :
    svs.sparse_vectors.length = ip.length - 1 ∧
    ∀ i (h : i < svs.sparse_vectors.length),
      (svs.sparse_vectors.get ⟨i, h⟩).len_ = ip.getD (i+1) 0 - ip.getD i 0 := by
  unfold BuildSparseVectorsFromCSR at hok
  by_cases h0 : ip.length < 2
  · rw [if_pos h0] at hok; exact absurd hok (by simp)
  rw [if_neg h0] at hok
  by_cases hc : ind.length ≠ ip.getD (ip.length - 1) 0
  · rw [if_pos hc] at hok; exact absurd hok (by simp)
  rw [if_neg hc] at hok
  by_cases hd : val.length ≠ ip.getD (ip.length - 1) 0
  · rw [if_pos hd] at hok; exact absurd hok (by simp)
  rw [if_neg hd] at hok
  by_cases ha : ip.getD 0 0 ≠ 0
  · rw [if_pos ha] at hok; exact absurd hok (by simp)
  rw [if_neg ha] at hok
  cases hf : (List.range (ip.length - 1)).find?
      (fun j => decide (ip.getD (j+1) 0 < ip.getD j 0)) with
  | some j => rw [hf] at hok; exact absurd hok (by simp)
  | none =>
    rw [hf] at hok
    have hsv := Except.ok.inj hok
    subst hsv
    constructor
    · simp
    · intro i h
      simp [List.get_eq_getElem]

/-- C5 witness: `ids = [0,1,2]` with `index_pointers = [0,2,5,6]` yields
per-row nonzero counts `[2,3,1]`. -/
theorem C5_witness :
    BuildSparseVectorsFromCSR [0,2,5,6] [0,1,0,1,2,0] ([9,9,9,9,9,9] : List Nat) =
      .ok csrRowsExample ∧
    (csrRowsExample.sparse_vectors.length = ([0,2,5,6] : List Nat).length - 1 ∧
     ∀ i (h : i < csrRowsExample.sparse_vectors.length),
       (csrRowsExample.sparse_vectors.get ⟨i, h⟩).len_ =
         ([0,2,5,6] : List Nat).getD (i+1) 0 - ([0,2,5,6] : List Nat).getD i 0) :=
  ⟨by rfl, C5_csr_row_counts [0,2,5,6] [0,1,0,1,2,0] [9,9,9,9,9,9] csrRowsExample (by rfl)⟩

/-! ## Claim C9 -/

/-- C9: a default-constructed build parameter value has prefetch mode
`HARDCODED`, all option flags false and float data type; a
default-constructed search parameter value has prefetch mode `HARDCODED`,
skip ratio `0.9`, stride 1, depth 1 and visit stride 3 — and the skip
ratio differs from 1, so the recall-trading skip heuristic is active by
default. -/
theorem C9_parameter_defaults (md efc efs : Int) (ucgs : Bool) :
    (defaultHnswParameters md efc).prefetch_mode = PrefetchMode.HARDCODED ∧
    (defaultHnswParameters md efc).use_conjugate_graph = false ∧
    (defaultHnswParameters md efc).use_static = false ∧
    (defaultHnswParameters md efc).normalize = false ∧
    (defaultHnswParameters md efc).use_reversed_edges = false ∧
    (defaultHnswParameters md efc).type = DataTypes.DATA_TYPE_FLOAT ∧
    (defaultHnswSearchParameters efs ucgs).prefetch_mode = PrefetchMode.HARDCODED ∧
    (defaultHnswSearchParameters efs ucgs).skipRatioVal = 9/10 ∧
    (defaultHnswSearchParameters efs ucgs).prefetch_stride_codes = 1 ∧
    (defaultHnswSearchParameters efs ucgs).prefetch_depth_codes = 1 ∧
    (defaultHnswSearchParameters efs ucgs).prefetch_stride_visit = 3 ∧
    (defaultHnswSearchParameters efs ucgs).skipRatioVal ≠ 1 :=
  ⟨rfl, rfl, rfl, rfl, rfl, rfl, rfl, rfl, rfl, rfl, rfl, by norm_num [defaultHnswSearchParameters]⟩

/-! ## Claim C4 -/

/-- C4 counterexample: when the underlying range search fails, the
`Index::RangeSearch` binding returns a normal (empty) result rather than
reporting the error — the claim that every search failure is surfaced to
the caller is false at this input. -/
theorem C4_counterexample :
    bindingRangeSearch (Except.error { message := "inner search failed" }) =
      Except.ok ([], []) ∧
    isErr (bindingRangeSearch (Except.error { message := "inner search failed" })) = false :=
  ⟨rfl, rfl⟩

/-- C4 amended: the `Index::KnnSearch` binding surfaces an underlying
search failure to its caller as an error carrying the inner message, but
the `Index::RangeSearch` binding swallows an underlying failure and
returns a normal empty result; both copy ids and distances through on
success. -/
theorem C4_error_propagation (e : VsagError) (res : List (Int × ℚ)) :
    bindingKnnSearch (Except.error e) = Except.error e.message ∧
    bindingRangeSearch (Except.error e) = Except.ok ([], []) ∧
    bindingKnnSearch (Except.ok res) = Except.ok (res.map Prod.fst, res.map Prod.snd) ∧
    bindingRangeSearch (Except.ok res) = Except.ok (res.map Prod.fst, res.map Prod.snd) :=
  ⟨rfl, rfl, rfl, rfl⟩

end VSAG

namespace VSAG

/-! ## Claim C7 -/

/-- Decoding inverts node encoding, for any trailing snapshot bytes. -/
theorem decodeNode_encodeNode (nd : Node) (rest : List Nat) :
    decodeNode (encodeNode nd ++ rest) = some (nd, rest) := by
  cases nd with
  | mk i df ns =>
    show decodeNode (i :: (cond df 1 0) :: ns.length :: (ns ++ rest)) = _
    cases df <;>
      simp [decodeNode, List.take_left, List.drop_left]

/-- Decoding inverts the encoding of a node list. -/
theorem decodeNodes_encode (l : List Node) (rest : List Nat) :
    decodeNodes l.length (l.flatMap encodeNode ++ rest) = some (l, rest) := by
  induction l generalizing rest with
  | nil => rfl
  | cons nd tl ih =>
    show decodeNodes (tl.length + 1) ((encodeNode nd ++ tl.flatMap encodeNode) ++ rest) = _
    rw [List.append_assoc]
    unfold decodeNodes
    rw [decodeNode_encodeNode]
    simp [ih]

/-- Deserializing a serialized graph reproduces the graph exactly. -/
theorem deserialize_serialize (g : Graph) : deserialize (serialize g) = some g := by
  have h := decodeNodes_encode g.nodes []
  rw [List.append_nil] at h
  simp [serialize, deserialize, h]

/-- C7: `Serialize` followed by `Deserialize` yields an index whose
`KnnSearch` and `RangeSearch` results for any fixed query and search
configuration are identical to those of the original index. -/
theorem C7_serialize_roundtrip_search (g : Graph) (d : Nat → ℚ) (k ef : Nat)
    (sr t : ℚ) (cfg : PrefetchConfig) (byteSize : Nat) :
    (deserialize (serialize g)).map
        (fun g2 => (KnnSearch g2 d k ef sr cfg byteSize,
                    RangeSearch g2 d t ef sr cfg byteSize)) =
      some (KnnSearch g d k ef sr cfg byteSize,
            RangeSearch g d t ef sr cfg byteSize) := by
  rw [deserialize_serialize g]
  rfl

/-! ## Claim C1 -/

/-- Scoring a neighbor commutes with overriding the hint log: the heap and
visited-set updates never read the hints. -/
theorem scoreNbr_hints_comm (g : Graph) (d : Nat → ℚ) (ef : Nat)
    (vis fr be : List Nat) (hl h : List (Nat × Nat)) (v : Nat) :
    scoreNbr g d ef ⟨vis, fr, be, h⟩ v =
      { scoreNbr g d ef ⟨vis, fr, be, hl⟩ v with hints := h } := by
  simp only [scoreNbr]
  split_ifs <;> rfl

/-- Folding the neighbor scoring commutes with overriding the hint log. -/
theorem foldl_scoreNbr_hints_comm (g : Graph) (d : Nat → ℚ) (ef : Nat)
    (ns : List Nat) : ∀ (vis fr be : List Nat) (hl h : List (Nat × Nat)),
    ns.foldl (scoreNbr g d ef) ⟨vis, fr, be, h⟩ =
      { ns.foldl (scoreNbr g d ef) ⟨vis, fr, be, hl⟩ with hints := h } := by
  induction ns with
  | nil => intro vis fr be hl h; rfl
  | cons v tl ih =>
    intro vis fr be hl h
    simp only [List.foldl_cons]
    rw [scoreNbr_hints_comm g d ef vis fr be hl h v]
    rcases hS : scoreNbr g d ef ⟨vis, fr, be, hl⟩ v with ⟨v2, f2, b2, h2⟩
    exact ih v2 f2 b2 h2 h

/-- The search loop's visited set, frontier and best heap do not depend on
the prefetch parameters or on the hint log carried in the state. -/
theorem searchLoop_core_pc (g : Graph) (d : Nat → ℚ) (ef : Nat) (sr : ℚ) :
    ∀ (fuel : Nat) (pc pc' : Option (Nat × Nat × Nat)) (vis fr be : List Nat)
      (hl h : List (Nat × Nat)),
    ((searchLoop g d ef sr pc fuel ⟨vis, fr, be, h⟩).visited,
     (searchLoop g d ef sr pc fuel ⟨vis, fr, be, h⟩).frontier,
     (searchLoop g d ef sr pc fuel ⟨vis, fr, be, h⟩).best) =
    ((searchLoop g d ef sr pc' fuel ⟨vis, fr, be, hl⟩).visited,
     (searchLoop g d ef sr pc' fuel ⟨vis, fr, be, hl⟩).frontier,
     (searchLoop g d ef sr pc' fuel ⟨vis, fr, be, hl⟩).best) := by
  intro fuel
  induction fuel with
  | zero => intro pc pc' vis fr be hl h; rfl
  | succ fuel ih =>
    intro pc pc' vis fr be hl h
    cases fr with
    | nil => rfl
    | cons c rest =>
      rw [searchLoop, searchLoop]
      by_cases hstop : stopCond d be c = true
      · rw [if_pos hstop, if_pos hstop]
      · rw [if_neg hstop, if_neg hstop]
        by_cases hskip : skipCond d sr be c = true
        · rw [if_pos hskip, if_pos hskip]
          exact ih pc pc' vis rest be hl h
        · rw [if_neg hskip, if_neg hskip]
          rw [foldl_scoreNbr_hints_comm g d ef (g.nbrsOf c) vis rest be hl
            (h ++ hintsFor pc (g.nbrsOf c))]
          rw [foldl_scoreNbr_hints_comm g d ef (g.nbrsOf c) vis rest be hl
            (hl ++ hintsFor pc' (g.nbrsOf c))]
          rcases hF : (g.nbrsOf c).foldl (scoreNbr g d ef) ⟨vis, rest, be, hl⟩ with
            ⟨v2, f2, b2, h2⟩
          calc ((searchLoop g d ef sr pc fuel ⟨v2, f2, b2, h ++ hintsFor pc (g.nbrsOf c)⟩).visited,
                (searchLoop g d ef sr pc fuel ⟨v2, f2, b2, h ++ hintsFor pc (g.nbrsOf c)⟩).frontier,
                (searchLoop g d ef sr pc fuel ⟨v2, f2, b2, h ++ hintsFor pc (g.nbrsOf c)⟩).best)
              = ((searchLoop g d ef sr pc' fuel ⟨v2, f2, b2, h2⟩).visited,
                 (searchLoop g d ef sr pc' fuel ⟨v2, f2, b2, h2⟩).frontier,
                 (searchLoop g d ef sr pc' fuel ⟨v2, f2, b2, h2⟩).best) :=
                ih pc pc' v2 f2 b2 h2 (h ++ hintsFor pc (g.nbrsOf c))
            _ = ((searchLoop g d ef sr pc' fuel ⟨v2, f2, b2, hl ++ hintsFor pc' (g.nbrsOf c)⟩).visited,
                 (searchLoop g d ef sr pc' fuel ⟨v2, f2, b2, hl ++ hintsFor pc' (g.nbrsOf c)⟩).frontier,
                 (searchLoop g d ef sr pc' fuel ⟨v2, f2, b2, hl ++ hintsFor pc' (g.nbrsOf c)⟩).best) :=
                (ih pc' pc' v2 f2 b2 h2 (hl ++ hintsFor pc' (g.nbrsOf c))).symm

/-- C1: for every fixed query, `k` and `ef_search`, `KnnSearch` is
identical whichever prefetch configuration is in effect — `Disabled`,
`Hardcoded`, or any `Custom` parameters — and the prefetch mode never
changes which candidates are visited. -/
theorem C1_prefetch_mode_invariance (g : Graph) (d : Nat → ℚ) (k ef : Nat)
    (sr : ℚ) (byteSize : Nat) (cfg cfg' : PrefetchConfig) :
    KnnSearch g d k ef sr cfg byteSize = KnnSearch g d k ef sr cfg' byteSize ∧
    (baseSearch g d ef sr (effectivePrefetch byteSize cfg)).visited =
      (baseSearch g d ef sr (effectivePrefetch byteSize cfg')).visited := by
  rcases hI : initState g ef with ⟨vis, fr, be, hl⟩
  have hl0 : hl = [] := by
    have := congrArg SState.hints hI
    simp [initState] at this
    exact this
  subst hl0
  have h := searchLoop_core_pc g d ef sr (g.nodes.length + 1)
    (effectivePrefetch byteSize cfg) (effectivePrefetch byteSize cfg')
    vis fr be [] []
  have hb : (baseSearch g d ef sr (effectivePrefetch byteSize cfg)).best =
      (baseSearch g d ef sr (effectivePrefetch byteSize cfg')).best := by
    unfold baseSearch
    rw [hI]
    exact congrArg (fun p => p.2.2) h
  have hv : (baseSearch g d ef sr (effectivePrefetch byteSize cfg)).visited =
      (baseSearch g d ef sr (effectivePrefetch byteSize cfg')).visited := by
    unfold baseSearch
    rw [hI]
    exact congrArg (fun p => p.1) h
  refine ⟨?_, hv⟩
  unfold KnnSearch knnCandidates
  rw [hb]

end VSAG

namespace VSAG

/-! ## Search-state invariant preservation -/

/-- Get-set at the written position. -/
theorem get?_set_self {α : Type} (l : List α) (i : Nat) (a : α) (h : i < l.length) :
    (l.set i a).get? i = some a := by
  rw [List.get?_eq_getElem?, List.getElem?_set_self', List.getElem?_eq_getElem h]
  rfl

/-- Get-set at another position. -/
theorem get?_set_other {α : Type} (l : List α) (i j : Nat) (a : α) (h : i ≠ j) :
    (l.set i a).get? j = l.get? j := by
  rw [List.get?_eq_getElem?, List.getElem?_set_ne h, List.get?_eq_getElem?]

/-- Scoring one neighbor preserves the structural invariant. -/
theorem BInv_scoreNbr (g : Graph) (d : Nat → ℚ) (ef : Nat) (s : SState) (v : Nat)
    (hI : BInv g d ef s) : BInv g d ef (scoreNbr g d ef s v) := by
  obtain ⟨vis, fr, be, hl⟩ := s
  obtain ⟨hSort, hBLive, hFLive, hBVis, hFVis, hBNd, hFNd, hBLen, hEnt⟩ := hI
  simp only [scoreNbr]
  split_ifs with h1 h2
  · exact ⟨hSort, hBLive, hFLive, hBVis, hFVis, hBNd, hFNd, hBLen, hEnt⟩
  · push_neg at h1
    obtain ⟨hvv, hvl⟩ := h1
    have hmemB : ∀ x, x ∈ (be.orderedInsert (cle d) v).take ef → x = v ∨ x ∈ be := by
      intro x hx
      have hx' : x ∈ be.orderedInsert (cle d) v :=
        (List.take_sublist ef _).subset hx
      have := (List.perm_orderedInsert (cle d) v be).mem_iff.mp hx'
      simpa using this
    have hmemF : ∀ x, x ∈ fr.orderedInsert (cle d) v → x = v ∨ x ∈ fr := by
      intro x hx
      have := (List.perm_orderedInsert (cle d) v fr).mem_iff.mp hx
      simpa using this
    refine ⟨?_, ?_, ?_, ?_, ?_, ?_, ?_, ?_, ?_⟩
    · exact (List.Sorted.orderedInsert v be hSort).sublist (List.take_sublist ef _)
    · intro x hx
      rcases hmemB x hx with rfl | hxb
      · exact hvl
      · exact hBLive x hxb
    · intro x hx
      rcases hmemF x hx with rfl | hxf
      · exact hvl
      · exact hFLive x hxf
    · intro x hx
      rcases hmemB x hx with rfl | hxb
      · exact List.mem_cons_self x vis
      · exact List.mem_cons_of_mem v (hBVis hxb)
    · intro x hx
      rcases hmemF x hx with rfl | hxf
      · exact List.mem_cons_self x vis
      · exact List.mem_cons_of_mem v (hFVis hxf)
    · have hvbe : v ∉ be := fun hmem => hvv (hBVis hmem)
      have : (be.orderedInsert (cle d) v).Nodup :=
        ((List.perm_orderedInsert (cle d) v be).nodup_iff).mpr
          (List.nodup_cons.mpr ⟨hvbe, hBNd⟩)
      exact this.sublist (List.take_sublist ef _)
    · have hvfr : v ∉ fr := fun hmem => hvv (hFVis hmem)
      exact ((List.perm_orderedInsert (cle d) v fr).nodup_iff).mpr
        (List.nodup_cons.mpr ⟨hvfr, hFNd⟩)
    · rw [List.length_take]
      exact min_le_left _ _
    · exact List.mem_cons_of_mem v hEnt
  · refine ⟨hSort, hBLive, hFLive, ?_, ?_, hBNd, hFNd, hBLen,
      List.mem_cons_of_mem v hEnt⟩
    · exact fun x hx => List.mem_cons_of_mem v (hBVis hx)
    · exact fun x hx => List.mem_cons_of_mem v (hFVis hx)

/-- Folding the neighbor scoring preserves the structural invariant. -/
theorem BInv_foldl (g : Graph) (d : Nat → ℚ) (ef : Nat) (ns : List Nat) :
    ∀ (s : SState), BInv g d ef s → BInv g d ef (ns.foldl (scoreNbr g d ef) s) := by
  induction ns with
  | nil => intro s h; exact h
  | cons v tl ih =>
    intro s h
    exact ih (scoreNbr g d ef s v) (BInv_scoreNbr g d ef s v h)

/-- The search loop preserves the structural invariant. -/
theorem BInv_searchLoop (g : Graph) (d : Nat → ℚ) (ef : Nat) (sr : ℚ)
    (pc : Option (Nat × Nat × Nat)) :
    ∀ (fuel : Nat) (s : SState), BInv g d ef s →
      BInv g d ef (searchLoop g d ef sr pc fuel s) := by
  intro fuel
  induction fuel with
  | zero => intro s h; exact h
  | succ fuel ih =>
    intro s h
    obtain ⟨vis, fr, be, hl⟩ := s
    cases fr with
    | nil => exact h
    | cons c rest =>
      obtain ⟨hSort, hBLive, hFLive, hBVis, hFVis, hBNd, hFNd, hBLen, hEnt⟩ := h
      have hTail : BInv g d ef ⟨vis, rest, be, hl⟩ := by
        refine ⟨hSort, hBLive, ?_, hBVis, ?_, hBNd, hFNd.sublist (List.sublist_cons_self c rest), hBLen, hEnt⟩
        · exact fun x hx => hFLive x (List.mem_cons_of_mem c hx)
        · exact fun x hx => hFVis (List.mem_cons_of_mem c hx)
      rw [searchLoop]
      split_ifs with hstop hskip
      · exact ⟨hSort, hBLive, hFLive, hBVis, hFVis, hBNd, hFNd, hBLen, hEnt⟩
      · exact ih _ hTail
      · refine ih _ (BInv_foldl g d ef (g.nbrsOf c) _ ?_)
        exact ⟨hSort, hBLive, hTail.2.2.1, hBVis, hTail.2.2.2.2.1, hBNd,
          hTail.2.2.2.2.2.2.1, hBLen, hEnt⟩

/-- The initial state satisfies the structural invariant. -/
theorem initState_BInv (g : Graph) (d : Nat → ℚ) (ef : Nat) :
    BInv g d ef (initState g ef) := by
  unfold initState
  by_cases h : g.live g.entry = true
  · rw [if_pos h]
    have hsub : ∀ x, x ∈ ([g.entry].take ef) → x = g.entry := by
      intro x hx
      have := (List.take_sublist ef [g.entry]).subset hx
      simpa using this
    refine ⟨?_, ?_, ?_, ?_, ?_, ?_, ?_, ?_, ?_⟩
    · exact (List.sorted_singleton g.entry).sublist (List.take_sublist ef _)
    · intro x hx; rw [hsub x hx]; exact h
    · intro x hx
      have : x = g.entry := by simpa using hx
      rw [this]; exact h
    · intro x hx; rw [hsub x hx]; exact List.mem_cons_self _ _
    · intro x hx
      have : x = g.entry := by simpa using hx
      rw [this]; exact List.mem_cons_self _ _
    · exact (List.nodup_singleton g.entry).sublist (List.take_sublist ef _)
    · exact List.nodup_singleton g.entry
    · rw [List.length_take]; exact min_le_left _ _
    · exact List.mem_cons_self _ _
  · rw [if_neg h]
    refine ⟨?_, ?_, ?_, ?_, ?_, ?_, ?_, ?_, ?_⟩ <;>
      simp [List.Sorted]

/-- The finished search satisfies the structural invariant. -/
theorem baseSearch_BInv (g : Graph) (d : Nat → ℚ) (ef : Nat) (sr : ℚ)
    (pc : Option (Nat × Nat × Nat)) : BInv g d ef (baseSearch g d ef sr pc) :=
  BInv_searchLoop g d ef sr pc (g.nodes.length + 1) (initState g ef)
    (initState_BInv g d ef)

/-- A live internal index is among the live indices. -/
theorem live_mem_liveIndices (g : Graph) (x : Nat) (h : g.live x = true) :
    x ∈ g.liveIndices := by
  unfold Graph.liveIndices
  rw [List.mem_filter]
  refine ⟨List.mem_range.mpr ?_, h⟩
  by_contra hx
  push_neg at hx
  have hnone : g.nodes.get? x = none := List.get?_eq_none.mpr hx
  unfold Graph.live at h
  rw [hnone] at h
  exact absurd h (by simp)

/-! ## Claim C6 -/

/-- C6: the result set of `RangeSearch(query, t)` equals the subset of
`KnnSearch(query, N)` whose distance is at most `t`, where `N` is the
number of live nodes. -/
theorem C6_range_search_eq_filtered_knn (g : Graph) (d : Nat → ℚ) (t : ℚ)
    (ef : Nat) (sr : ℚ) (cfg : PrefetchConfig) (byteSize : Nat) :
    RangeSearch g d t ef sr cfg byteSize =
      (KnnSearch g d g.liveIndices.length ef sr cfg byteSize).filter
        (fun r => decide (r.2 ≤ t)) := by
  unfold RangeSearch KnnSearch knnCandidates
  obtain ⟨hSort, hBLive, hFLive, hBVis, hFVis, hBNd, hFNd, hBLen, hEnt⟩ :=
    baseSearch_BInv g d ef sr (effectivePrefetch byteSize cfg)
  have hsub : (baseSearch g d ef sr (effectivePrefetch byteSize cfg)).best ⊆
      g.liveIndices := fun x hx => live_mem_liveIndices g x (hBLive x hx)
  have hlen : (baseSearch g d ef sr (effectivePrefetch byteSize cfg)).best.length ≤
      g.liveIndices.length := (List.subperm_of_subset hBNd hsub).length_le
  rw [List.take_of_length_le hlen, List.filter_map]
  rfl

end VSAG

namespace VSAG

/-! ## Claim C8 -/

/-- Characterization of a successful `removeOne`: only the matched node's
tombstone flag changes — ids, adjacency and node count are untouched. -/
theorem removeOne_ok (g g' : Graph) (x : Nat) (hr : removeOne g x = .ok g') :
    g'.nodes.length = g.nodes.length ∧
    (∀ j, g'.idOf j = g.idOf j) ∧
    (∃ i, i < g.nodes.length ∧ g.live i = true ∧ g.idOf i = x ∧
      g'.live i = false ∧ (∀ j, j ≠ i → g'.live j = g.live j)) := by
  unfold removeOne at hr
  cases hfind : (List.range g.nodes.length).find?
      (fun i => g.live i && (g.idOf i == x)) with
  | none => rw [hfind] at hr; exact absurd hr (by simp)
  | some i =>
    rw [hfind] at hr
    dsimp only at hr
    have hmem := List.mem_range.mp (List.mem_of_find?_eq_some hfind)
    have hp := List.find?_some hfind
    rw [Bool.and_eq_true] at hp
    obtain ⟨hlive, hid⟩ := hp
    have hid' : g.idOf i = x := by simpa using hid
    cases hget : g.nodes.get? i with
    | none => rw [hget] at hr; exact absurd hr (by simp)
    | some nd =>
      rw [hget] at hr
      have hg' : { g with nodes := g.nodes.set i { nd with deleted := true } } = g' :=
        Except.ok.inj hr
      subst hg'
      refine ⟨List.length_set g.nodes i _, ?_, i, hmem, hlive, hid', ?_, ?_⟩
      · intro j
        unfold Graph.idOf
        by_cases hji : i = j
        · subst hji
          rw [show ((g.nodes.set i { nd with deleted := true }).get? i)
              = some { nd with deleted := true } from get?_set_self g.nodes i _ hmem]
          rw [hget]
        · rw [get?_set_other g.nodes i j _ hji]
      · unfold Graph.live
        rw [show ((g.nodes.set i { nd with deleted := true }).get? i)
            = some { nd with deleted := true } from get?_set_self g.nodes i _ hmem]
        rfl
      · intro j hji
        unfold Graph.live
        rw [get?_set_other g.nodes i j _ (fun he => hji he.symm)]

/-- C8: after `Remove(id)` succeeds, no subsequent `KnnSearch` or
`RangeSearch` returns `id`, although the tombstoned node is not compacted
out of the adjacency structure (the node count is unchanged).  The
hypothesis is the spec's invariant that external ids are unique among
live nodes. -/
theorem C8_remove_excludes_id (g g' : Graph) (x : Nat)
    (hu : (g.liveIndices.map g.idOf).Nodup)
    (hr : removeOne g x = .ok g') :
    (∀ d k ef sr cfg byteSize,
      x ∉ (KnnSearch g' d k ef sr cfg byteSize).map Prod.fst) ∧
    (∀ d t ef sr cfg byteSize,
      x ∉ (RangeSearch g' d t ef sr cfg byteSize).map Prod.fst) ∧
    g'.nodes.length = g.nodes.length := by
  obtain ⟨hlen, hids, i, hi, hliveI, hidI, hdeadI, hothers⟩ := removeOne_ok g g' x hr
  have key : ∀ (c : Nat), g'.live c = true → g'.idOf c ≠ x := by
    intro c hc
    have hci : c ≠ i := by
      intro he
      subst he
      rw [hc] at hdeadI
      cases hdeadI
    have hcg : g.live c = true := by rw [← hothers c hci]; exact hc
    rw [hids c]
    intro hcx
    have hcm : c ∈ g.liveIndices := live_mem_liveIndices g c hcg
    have him : i ∈ g.liveIndices := live_mem_liveIndices g i hliveI
    exact hci (List.inj_on_of_nodup_map hu hcm him (by rw [hcx, hidI]))
  refine ⟨?_, ?_, hlen⟩
  · intro d k ef sr cfg byteSize hmem
    unfold KnnSearch knnCandidates at hmem
    rw [List.map_map, List.mem_map] at hmem
    obtain ⟨c, hc, hcx⟩ := hmem
    obtain ⟨_, hBLive, _⟩ := baseSearch_BInv g' d ef sr (effectivePrefetch byteSize cfg)
    have hc' : c ∈ (baseSearch g' d ef sr (effectivePrefetch byteSize cfg)).best :=
      (List.take_sublist k _).subset hc
    exact key c (hBLive c hc') hcx
  · intro d t ef sr cfg byteSize hmem
    unfold RangeSearch at hmem
    rw [List.map_map, List.mem_map] at hmem
    obtain ⟨c, hc, hcx⟩ := hmem
    obtain ⟨_, hBLive, _⟩ := baseSearch_BInv g' d ef sr (effectivePrefetch byteSize cfg)
    have hc' : c ∈ (baseSearch g' d ef sr (effectivePrefetch byteSize cfg)).best :=
      List.mem_of_mem_filter hc
    exact key c (hBLive c hc') hcx

/-- C8 witness: tombstoning external id 102 in the chain fixture keeps the
arena size at three nodes while excluding 102 from both searches. -/
theorem C8_witness :
    ((chainGraph.liveIndices.map chainGraph.idOf).Nodup ∧
     removeOne chainGraph 102 = .ok chainGraphRemoved) ∧
    (102 ∉ (KnnSearch chainGraphRemoved chainDist 3 3 1
        PrefetchConfig.Hardcoded 512).map Prod.fst ∧
     102 ∉ (RangeSearch chainGraphRemoved chainDist 2 3 1
        PrefetchConfig.Hardcoded 512).map Prod.fst ∧
     chainGraphRemoved.nodes.length = chainGraph.nodes.length) :=
  ⟨⟨by decide, by rfl⟩,
   (C8_remove_excludes_id chainGraph chainGraphRemoved 102 (by decide) (by rfl)).1
     chainDist 3 3 1 PrefetchConfig.Hardcoded 512,
   (C8_remove_excludes_id chainGraph chainGraphRemoved 102 (by decide) (by rfl)).2.1
     chainDist 2 3 1 PrefetchConfig.Hardcoded 512,
   (C8_remove_excludes_id chainGraph chainGraphRemoved 102 (by decide) (by rfl)).2.2⟩

end VSAG

namespace VSAG

/-! ## Claim C3: order, monotonicity and measure lemmas -/

/-- The candidate order is reflexive. -/
theorem cle_refl (d : Nat → ℚ) (a : Nat) : cle d a a := Or.inr ⟨rfl, le_refl a⟩

/-- The candidate order refines the distance order. -/
theorem cle_dist_le {d : Nat → ℚ} {a b : Nat} (h : cle d a b) : d a ≤ d b := by
  rcases h with h | ⟨h, _⟩
  · exact le_of_lt h
  · exact le_of_eq h

/-- In a sorted candidate list, every member is below the last element. -/
theorem sorted_rel_getLast (d : Nat → ℚ) :
    ∀ (l : List Nat), List.Sorted (cle d) l → ∀ x ∈ l, ∀ w, l.getLast? = some w →
      cle d x w := by
  intro l
  induction l with
  | nil => intro _ x hx; cases hx
  | cons a tl ih =>
    intro hs x hx w hw
    cases tl with
    | nil =>
      have hxa : x = a := by simpa using hx
      have hwa : w = a := by
        have := hw
        simp at this
        exact this.symm
      rw [hxa, hwa]
      exact cle_refl d a
    | cons b tl' =>
      rw [List.getLast?_cons_cons] at hw
      rcases List.mem_cons.mp hx with rfl | hx'
      · have hw' : w ∈ b :: tl' := List.mem_of_mem_getLast? hw
        exact (List.sorted_cons.mp hs).1 w hw'
      · exact ih (List.sorted_cons.mp hs).2 x hx' w hw

/-- The best heap never shrinks while it respects the `ef` bound. -/
theorem scoreNbr_best_length_mono (g : Graph) (d : Nat → ℚ) (ef : Nat)
    (s : SState) (v : Nat) (hlen : s.best.length ≤ ef) :
    s.best.length ≤ (scoreNbr g d ef s v).best.length := by
  obtain ⟨vis, fr, be, hl⟩ := s
  simp only [scoreNbr]
  split_ifs
  · exact le_refl _
  · simp only [List.length_take, List.orderedInsert_length]
    simp only at hlen
    omega
  · exact le_refl _

/-- A full best heap stays full under scoring. -/
theorem scoreNbr_best_length_full (g : Graph) (d : Nat → ℚ) (ef : Nat)
    (s : SState) (v : Nat) (hfull : s.best.length = ef) :
    (scoreNbr g d ef s v).best.length = ef := by
  obtain ⟨vis, fr, be, hl⟩ := s
  simp only [scoreNbr]
  split_ifs
  · exact hfull
  · simp only [List.length_take, List.orderedInsert_length]
    simp only at hfull
    omega
  · exact hfull

/-- The best heap never shrinks across a whole expansion. -/
theorem foldl_best_length_mono (g : Graph) (d : Nat → ℚ) (ef : Nat) (ns : List Nat) :
    ∀ (s : SState), BInv g d ef s →
      s.best.length ≤ (ns.foldl (scoreNbr g d ef) s).best.length := by
  induction ns with
  | nil => intro s _; exact le_refl _
  | cons v tl ih =>
    intro s hB
    have h1 := scoreNbr_best_length_mono g d ef s v hB.2.2.2.2.2.2.2.1
    exact le_trans h1 (ih _ (BInv_scoreNbr g d ef s v hB))

/-- A full best heap stays full across a whole expansion. -/
theorem foldl_best_length_full (g : Graph) (d : Nat → ℚ) (ef : Nat) (ns : List Nat) :
    ∀ (s : SState), s.best.length = ef →
      (ns.foldl (scoreNbr g d ef) s).best.length = ef := by
  induction ns with
  | nil => intro s h; exact h
  | cons v tl ih =>
    intro s h
    exact ih _ (scoreNbr_best_length_full g d ef s v h)

/-- Discovering an undiscovered live node strictly shrinks the pool of
undiscovered live nodes. -/
theorem measure_filter_lt (g : Graph) (vis : List Nat) (v : Nat)
    (hvl : g.live v = true) (hnv : v ∉ vis) :
    (g.liveIndices.filter (fun i => decide (i ∉ v :: vis))).length <
      (g.liveIndices.filter (fun i => decide (i ∉ vis))).length := by
  have hch : g.liveIndices.filter (fun i => decide (i ∉ v :: vis)) =
      (g.liveIndices.filter (fun i => decide (i ∉ vis))).filter
        (fun i => decide (i ≠ v)) := by
    rw [List.filter_filter]
    apply List.filter_congr
    intro x _
    by_cases h1 : x = v <;> by_cases h2 : x ∈ vis <;> simp [h1, h2]
  rw [hch, List.length_filter_lt_length_iff_exists]
  refine ⟨v, List.mem_filter.mpr ⟨live_mem_liveIndices g v hvl, by simpa using hnv⟩,
    by simp⟩

/-- Scoring a neighbor never increases the loop measure. -/
theorem scoreNbr_measure_le (g : Graph) (d : Nat → ℚ) (ef : Nat)
    (s : SState) (v : Nat) : sMeasure g (scoreNbr g d ef s v) ≤ sMeasure g s := by
  obtain ⟨vis, fr, be, hl⟩ := s
  simp only [scoreNbr]
  split_ifs with h1 h2
  · exact le_refl _
  · push_neg at h1
    obtain ⟨hnv, hvl⟩ := h1
    unfold sMeasure
    dsimp only
    simp only [List.orderedInsert_length]
    have := measure_filter_lt g vis v hvl hnv
    omega
  · push_neg at h1
    obtain ⟨hnv, hvl⟩ := h1
    unfold sMeasure
    dsimp only
    have := measure_filter_lt g vis v hvl hnv
    omega

/-- An expansion never increases the loop measure. -/
theorem foldl_measure_le (g : Graph) (d : Nat → ℚ) (ef : Nat) (ns : List Nat) :
    ∀ (s : SState), sMeasure g (ns.foldl (scoreNbr g d ef) s) ≤ sMeasure g s := by
  induction ns with
  | nil => intro s; exact le_refl _
  | cons v tl ih =>
    intro s
    exact le_trans (ih (scoreNbr g d ef s v)) (scoreNbr_measure_le g d ef s v)

/-- Scoring never forgets a discovered node. -/
theorem scoreNbr_visited_mono (g : Graph) (d : Nat → ℚ) (ef : Nat)
    (s : SState) (v : Nat) : s.visited ⊆ (scoreNbr g d ef s v).visited := by
  obtain ⟨vis, fr, be, hl⟩ := s
  simp only [scoreNbr]
  split_ifs
  · exact fun x h => h
  · exact fun x h => List.mem_cons_of_mem v h
  · exact fun x h => List.mem_cons_of_mem v h

/-- Scoring never drops a frontier entry. -/
theorem scoreNbr_frontier_mono (g : Graph) (d : Nat → ℚ) (ef : Nat)
    (s : SState) (v : Nat) : s.frontier ⊆ (scoreNbr g d ef s v).frontier := by
  obtain ⟨vis, fr, be, hl⟩ := s
  simp only [scoreNbr]
  split_ifs
  · exact fun x h => h
  · intro x h
    exact (List.perm_orderedInsert (cle d) v fr).mem_iff.mpr (List.mem_cons_of_mem v h)
  · exact fun x h => h

/-- A live scored neighbor ends up discovered. -/
theorem scoreNbr_visited_self (g : Graph) (d : Nat → ℚ) (ef : Nat)
    (s : SState) (v : Nat) : v ∈ s.visited → v ∈ (scoreNbr g d ef s v).visited := by
  intro hv
  exact scoreNbr_visited_mono g d ef s v hv

/-- A scored neighbor is discovered afterwards whenever it is live. -/
theorem scoreNbr_visited_scored (g : Graph) (d : Nat → ℚ) (ef : Nat)
    (s : SState) (v : Nat) (hvl : g.live v = true) :
    v ∈ (scoreNbr g d ef s v).visited := by
  obtain ⟨vis, fr, be, hl⟩ := s
  simp only [scoreNbr]
  split_ifs with h1 h2
  · rcases h1 with h | h
    · exact h
    · exact absurd hvl h
  · exact List.mem_cons_self v vis
  · exact List.mem_cons_self v vis

/-- Below the bound, scoring keeps every best-heap member. -/
theorem scoreNbr_best_mono (g : Graph) (d : Nat → ℚ) (ef : Nat)
    (s : SState) (v : Nat) (hlt : s.best.length < ef) :
    ∀ x ∈ s.best, x ∈ (scoreNbr g d ef s v).best := by
  obtain ⟨vis, fr, be, hl⟩ := s
  simp only at hlt
  simp only [scoreNbr]
  split_ifs with h1 hq
  · exact fun x h => h
  · intro x h
    have hlen : (be.orderedInsert (cle d) v).length ≤ ef := by
      rw [List.orderedInsert_length]
      omega
    rw [List.take_of_length_le hlen]
    exact (List.perm_orderedInsert (cle d) v be).mem_iff.mpr (List.mem_cons_of_mem v h)
  · exact fun x h => h

/-- Below the bound, a newly discovered node joins both heaps. -/
theorem scoreNbr_new_visit (g : Graph) (d : Nat → ℚ) (ef : Nat)
    (s : SState) (v : Nat) (hlt : s.best.length < ef) :
    ∀ x, x ∈ (scoreNbr g d ef s v).visited → x ∉ s.visited →
      x ∈ (scoreNbr g d ef s v).best ∧ x ∈ (scoreNbr g d ef s v).frontier := by
  obtain ⟨vis, fr, be, hl⟩ := s
  simp only at hlt
  have hq : qualifies d ef be v = true := by
    unfold qualifies
    have : decide (be.length < ef) = true := decide_eq_true hlt
    rw [this, Bool.true_or]
  simp only [scoreNbr]
  split_ifs with h1
  · intro x hx hnx; exact absurd hx hnx
  · intro x hx hnx
    have hxv : x = v := by
      rcases List.mem_cons.mp hx with h | h
      · exact h
      · exact absurd h hnx
    subst hxv
    constructor
    · have hlen : (be.orderedInsert (cle d) x).length ≤ ef := by
        rw [List.orderedInsert_length]
        omega
      rw [List.take_of_length_le hlen]
      exact (List.perm_orderedInsert (cle d) x be).mem_iff.mpr (List.mem_cons_self x be)
    · exact (List.perm_orderedInsert (cle d) x fr).mem_iff.mpr (List.mem_cons_self x fr)

end VSAG

namespace VSAG

/-! ## Claim C3: expansion and loop completeness -/

/-- Properties of a whole expansion: discovery is monotone, every live
scored neighbor ends up discovered, and — as long as the best heap stays
below the bound — nothing is evicted and every new discovery joins both
heaps. -/
theorem foldl_scoreNbr_props (g : Graph) (d : Nat → ℚ) (ef : Nat) (ns : List Nat) :
    ∀ (s : SState), BInv g d ef s →
      (s.visited ⊆ (ns.foldl (scoreNbr g d ef) s).visited) ∧
      (s.frontier ⊆ (ns.foldl (scoreNbr g d ef) s).frontier) ∧
      (∀ v ∈ ns, g.live v = true → v ∈ (ns.foldl (scoreNbr g d ef) s).visited) ∧
      ((ns.foldl (scoreNbr g d ef) s).best.length < ef →
        (∀ x ∈ s.best, x ∈ (ns.foldl (scoreNbr g d ef) s).best) ∧
        (∀ x, x ∈ (ns.foldl (scoreNbr g d ef) s).visited → x ∉ s.visited →
          x ∈ (ns.foldl (scoreNbr g d ef) s).best ∧
          x ∈ (ns.foldl (scoreNbr g d ef) s).frontier)) := by
  induction ns with
  | nil =>
    intro s hB
    exact ⟨fun x h => h, fun x h => h, by simp,
      fun _ => ⟨fun x h => h, fun x hx hnx => absurd hx hnx⟩⟩
  | cons v tl ih =>
    intro s hB
    simp only [List.foldl_cons]
    have hB' := BInv_scoreNbr g d ef s v hB
    obtain ⟨ihV, ihF, ihCov, ihNF⟩ := ih (scoreNbr g d ef s v) hB'
    refine ⟨?_, ?_, ?_, ?_⟩
    · exact fun x h => ihV (scoreNbr_visited_mono g d ef s v h)
    · exact fun x h => ihF (scoreNbr_frontier_mono g d ef s v h)
    · intro u hu hul
      rcases List.mem_cons.mp hu with rfl | hu'
      · exact ihV (scoreNbr_visited_scored g d ef s u hul)
      · exact ihCov u hu' hul
    · intro hnf
      have hlt' : (scoreNbr g d ef s v).best.length < ef :=
        lt_of_le_of_lt (foldl_best_length_mono g d ef tl _ hB') hnf
      have hlt : s.best.length < ef :=
        lt_of_le_of_lt (scoreNbr_best_length_mono g d ef s v
          hB.2.2.2.2.2.2.2.1) hlt'
      obtain ⟨ihKeep, ihNew⟩ := ihNF hnf
      refine ⟨?_, ?_⟩
      · intro x hx
        exact ihKeep x (scoreNbr_best_mono g d ef s v hlt x hx)
      · intro x hx hnx
        by_cases hmid : x ∈ (scoreNbr g d ef s v).visited
        · obtain ⟨hb, hf⟩ := scoreNbr_new_visit g d ef s v hlt x hmid hnx
          exact ⟨ihKeep x hb, ihF hf⟩
        · exact ihNew x hx hmid

/-- The completeness run of the loop with the skip heuristic disabled
(`skip_ratio = 1`) and nonnegative distances: starting from a state that
is either full or completeness-invariant, with enough fuel, the loop ends
either full or completeness-invariant with an exhausted frontier. -/
theorem searchLoop_complete (g : Graph) (d : Nat → ℚ) (ef : Nat)
    (pc : Option (Nat × Nat × Nat)) (hd : ∀ v, 0 ≤ d v) :
    ∀ (fuel : Nat) (s : SState), BInv g d ef s →
      sMeasure g s ≤ fuel →
      (s.best.length = ef ∨ NFInv g s) →
      ((searchLoop g d ef 1 pc fuel s).best.length = ef ∨
        (NFInv g (searchLoop g d ef 1 pc fuel s) ∧
         (searchLoop g d ef 1 pc fuel s).frontier = [])) := by
  intro fuel
  induction fuel with
  | zero =>
    intro s hB hm hC
    obtain ⟨vis, fr, be, hl⟩ := s
    have hfr : fr = [] := by
      unfold sMeasure at hm
      dsimp only at hm
      have := Nat.le_zero.mp hm
      exact List.length_eq_zero.mp (by omega)
    subst hfr
    rcases hC with h | h
    · exact Or.inl h
    · exact Or.inr ⟨h, rfl⟩
  | succ fuel ih =>
    intro s hB hm hC
    obtain ⟨vis, fr, be, hl⟩ := s
    cases fr with
    | nil =>
      rcases hC with h | h
      · exact Or.inl h
      · exact Or.inr ⟨h, rfl⟩
    | cons c rest =>
      obtain ⟨hSort, hBLive, hFLive, hBVis, hFVis, hBNd, hFNd, hBLen, hEnt⟩ := hB
      have hcLive : g.live c = true := hFLive c (List.mem_cons_self c rest)
      have hcVis : c ∈ vis := hFVis (List.mem_cons_self c rest)
      -- under the completeness invariant, the popped candidate is in the
      -- best heap, so neither the stop rule nor the skip rule fires
      have hcBest : NFInv g ⟨vis, c :: rest, be, hl⟩ → c ∈ be := by
        intro hNF
        exact hNF.1 c hcVis hcLive
      have hstopNF : NFInv g ⟨vis, c :: rest, be, hl⟩ → stopCond d be c = false := by
        intro hNF
        unfold stopCond
        cases hwl : be.getLast? with
        | none => rfl
        | some w =>
          have hcw : cle d c w := sorted_rel_getLast d be hSort c (hcBest hNF) w hwl
          have : ¬ (d w < d c) := not_lt.mpr (cle_dist_le hcw)
          simpa using this
      have hskipNF : NFInv g ⟨vis, c :: rest, be, hl⟩ →
          skipCond d 1 be c = false := by
        intro hNF
        unfold skipCond
        cases hwl : be.getLast? with
        | none => rfl
        | some w =>
          show decide (1 < d c / d w) = false
          have hcw : d c ≤ d w := cle_dist_le
            (sorted_rel_getLast d be hSort c (hcBest hNF) w hwl)
          rcases lt_or_eq_of_le (hd w) with hwpos | hwzero
          · have : d c / d w ≤ 1 := (div_le_one hwpos).mpr hcw
            simpa using not_lt.mpr this
          · rw [← hwzero, div_zero]
            simp
      have hTailB : BInv g d ef ⟨vis, rest, be, hl⟩ := by
        refine ⟨hSort, hBLive, ?_, hBVis, ?_, hBNd,
          hFNd.sublist (List.sublist_cons_self c rest), hBLen, hEnt⟩
        · exact fun x hx => hFLive x (List.mem_cons_of_mem c hx)
        · exact fun x hx => hFVis (List.mem_cons_of_mem c hx)
      have hmTail : sMeasure g ⟨vis, rest, be, hl⟩ ≤ fuel := by
        unfold sMeasure at hm ⊢
        dsimp only at hm ⊢
        simp only [List.length_cons] at hm
        omega
      rw [searchLoop]
      split_ifs with hstop hskip
      · -- the stop rule fired: the completeness invariant cannot hold,
        -- so the heap is full
        rcases hC with h | h
        · exact Or.inl h
        · rw [hstopNF h] at hstop
          cases hstop
      · -- the skip rule fired: likewise only possible when full
        rcases hC with h | h
        · exact ih ⟨vis, rest, be, hl⟩ hTailB hmTail (Or.inl h)
        · rw [hskipNF h] at hskip
          cases hskip
      · -- expansion
        have hB1 : BInv g d ef ⟨vis, rest, be, hl ++ hintsFor pc (g.nbrsOf c)⟩ :=
          ⟨hTailB.1, hTailB.2.1, hTailB.2.2.1, hTailB.2.2.2.1, hTailB.2.2.2.2.1,
           hTailB.2.2.2.2.2.1, hTailB.2.2.2.2.2.2.1, hTailB.2.2.2.2.2.2.2.1,
           hTailB.2.2.2.2.2.2.2.2⟩
        have hBfold := BInv_foldl g d ef (g.nbrsOf c) _ hB1
        have hmfold : sMeasure g ((g.nbrsOf c).foldl (scoreNbr g d ef)
            ⟨vis, rest, be, hl ++ hintsFor pc (g.nbrsOf c)⟩) ≤ fuel := by
          refine le_trans (foldl_measure_le g d ef (g.nbrsOf c) _) ?_
          have : sMeasure g ⟨vis, rest, be, hl ++ hintsFor pc (g.nbrsOf c)⟩ =
              sMeasure g ⟨vis, rest, be, hl⟩ := rfl
          rw [this]
          exact hmTail
        refine ih _ hBfold hmfold ?_
        rcases hC with h | h
        · exact Or.inl (foldl_best_length_full g d ef (g.nbrsOf c) _ h)
        · -- re-establish the completeness invariant after the expansion
          by_cases hfull : ((g.nbrsOf c).foldl (scoreNbr g d ef)
              ⟨vis, rest, be, hl ++ hintsFor pc (g.nbrsOf c)⟩).best.length = ef
          · exact Or.inl hfull
          · have hnf : ((g.nbrsOf c).foldl (scoreNbr g d ef)
                ⟨vis, rest, be, hl ++ hintsFor pc (g.nbrsOf c)⟩).best.length < ef :=
              lt_of_le_of_ne hBfold.2.2.2.2.2.2.2.1 hfull
            obtain ⟨hV, hF, hCov, hNFp⟩ :=
              foldl_scoreNbr_props g d ef (g.nbrsOf c) _ hB1
            obtain ⟨hKeep, hNew⟩ := hNFp hnf
            refine Or.inr ⟨?_, ?_⟩
            · -- every discovered live node is in the best heap
              intro x hx hxl
              by_cases hxold : x ∈ vis
              · exact hKeep x (h.1 x hxold hxl)
              · exact (hNew x hx hxold).1
            · -- every expanded node has its live neighbors discovered
              intro u hu hul hufr
              by_cases huold : u ∈ vis
              · by_cases huc : u = c
                · subst huc
                  intro w hw hwl
                  exact hCov w hw hwl
                · intro w hw hwl
                  have hurest : u ∉ rest := fun hr => hufr (hF hr)
                  have hucfr : u ∉ c :: rest := by
                    intro hmem
                    rcases List.mem_cons.mp hmem with h' | h'
                    · exact huc h'
                    · exact hurest h'
                  exact hV (h.2 u huold hul hucfr w hw hwl)
              · exact absurd (hNew u hu huold).2 hufr

/-- C3 amended: with the skip heuristic disabled (`skip_ratio = 1`),
nonnegative distances, a live entry point, every live node reachable from
the entry point through live nodes, and `ef_search ≥ k`, `KnnSearch`
succeeds and returns exactly `min k N` results over the `N` live nodes,
sorted ascending by distance with ties broken by ascending internal
index. -/
theorem C3_knn_count_sorted (g : Graph) (d : Nat → ℚ) (k ef : Nat)
    (cfg : PrefetchConfig) (byteSize : Nat)
    (hd : ∀ v, 0 ≤ d v)
    (hentry : g.live g.entry = true)
    (hreach : ∀ v ∈ g.liveIndices, ReachLive g v)
    (hk : k ≤ ef) :
    (KnnSearch g d k ef 1 cfg byteSize).length = min k g.liveIndices.length ∧
    List.Pairwise (fun a b => d a < d b ∨ (d a = d b ∧ a < b))
      (knnCandidates g d k ef 1 cfg byteSize) := by
  obtain ⟨hSort, hBLive, hFLive, hBVis, hFVis, hBNd, hFNd, hBLen, hEnt⟩ :=
    baseSearch_BInv g d ef 1 (effectivePrefetch byteSize cfg)
  have hminit : sMeasure g (initState g ef) ≤ g.nodes.length + 1 := by
    unfold sMeasure initState
    dsimp only
    have h1 : (if g.live g.entry = true then [g.entry] else []).length ≤ 1 := by
      split_ifs
      all_goals simp
    have h2 : (g.liveIndices.filter
        (fun i => decide (i ∉ [g.entry]))).length ≤ g.nodes.length := by
      refine le_trans (List.length_filter_le _ _) ?_
      unfold Graph.liveIndices
      exact le_trans (List.length_filter_le _ _) (by simp)
    omega
  have hCinit : (initState g ef).best.length = ef ∨ NFInv g (initState g ef) := by
    cases ef with
    | zero =>
      left
      simp [initState]
    | succ n =>
      right
      constructor
      · intro x hx hxl
        have hxe : x = g.entry := by simpa [initState] using hx
        subst hxe
        simp [initState, hentry]
      · intro u hu hul hufr
        have hue : u = g.entry := by simpa [initState] using hu
        subst hue
        exfalso
        apply hufr
        simp [initState, hentry]
  have hrun : (baseSearch g d ef 1 (effectivePrefetch byteSize cfg)).best.length = ef ∨
      (NFInv g (baseSearch g d ef 1 (effectivePrefetch byteSize cfg)) ∧
       (baseSearch g d ef 1 (effectivePrefetch byteSize cfg)).frontier = []) :=
    searchLoop_complete g d ef (effectivePrefetch byteSize cfg) hd
      (g.nodes.length + 1) (initState g ef) (initState_BInv g d ef) hminit hCinit
  have hsub : (baseSearch g d ef 1 (effectivePrefetch byteSize cfg)).best ⊆
      g.liveIndices := fun x hx => live_mem_liveIndices g x (hBLive x hx)
  have hlenN : (baseSearch g d ef 1 (effectivePrefetch byteSize cfg)).best.length ≤
      g.liveIndices.length := (List.subperm_of_subset hBNd hsub).length_le
  have hlenB : (KnnSearch g d k ef 1 cfg byteSize).length =
      min k (baseSearch g d ef 1 (effectivePrefetch byteSize cfg)).best.length := by
    unfold KnnSearch knnCandidates
    rw [List.length_map, List.length_take]
  have hkey : min k (baseSearch g d ef 1 (effectivePrefetch byteSize cfg)).best.length =
      min k g.liveIndices.length := by
    rcases hrun with hfull | ⟨hNF, hfr⟩
    · have hkN : k ≤ g.liveIndices.length := le_trans hk (hfull ▸ hlenN)
      rw [hfull]
      omega
    · have hvis : ∀ v, ReachLive g v → g.live v = true →
          v ∈ (baseSearch g d ef 1 (effectivePrefetch byteSize cfg)).visited := by
        intro v hv
        induction hv with
        | base => intro _; exact hEnt
        | @step u w hu hul hnb ih2 =>
          intro hwl
          have hu' := ih2 hul
          have hufr : u ∉ (baseSearch g d ef 1 (effectivePrefetch byteSize cfg)).frontier := by
            rw [hfr]
            exact List.not_mem_nil u
          exact hNF.2 u hu' hul hufr w hnb hwl
      have hallin : ∀ v ∈ g.liveIndices,
          v ∈ (baseSearch g d ef 1 (effectivePrefetch byteSize cfg)).best := by
        intro v hv
        have hvl : g.live v = true := (List.mem_filter.mp hv).2
        exact hNF.1 v (hvis v (hreach v hv) hvl) hvl
      have hge : g.liveIndices.length ≤
          (baseSearch g d ef 1 (effectivePrefetch byteSize cfg)).best.length := by
        have hndL : g.liveIndices.Nodup := (List.nodup_range _).filter _
        exact (List.subperm_of_subset hndL (fun x hx => hallin x hx)).length_le
      omega
  refine ⟨hlenB.trans hkey, ?_⟩
  have hSortT : List.Sorted (cle d) (knnCandidates g d k ef 1 cfg byteSize) :=
    hSort.sublist (List.take_sublist k _)
  have hNdT : (knnCandidates g d k ef 1 cfg byteSize).Nodup :=
    hBNd.sublist (List.take_sublist k _)
  have hboth := hSortT.and hNdT
  refine hboth.imp ?_
  intro a b hab
  obtain ⟨hab1, hab2⟩ := hab
  rcases hab1 with h | ⟨heq, hle⟩
  · exact Or.inl h
  · exact Or.inr ⟨heq, lt_of_le_of_ne hle hab2⟩

/-- Symbolic run of the chain fixture with the default skip ratio `0.9`:
after the entry point's expansion discovers node 1, node 1's distance
equals the current worst accepted distance, the ratio `d 1 / d 1 = 1`
exceeds `0.9`, the expansion of node 1 is skipped, and node 2 is never
discovered — the best heap ends as `[0, 1]`. -/
theorem chainGraph_skip_best (pc : Option (Nat × Nat × Nat)) :
    (baseSearch chainGraph chainDist 3 (9/10) pc).best = [0, 1] := by
  have hd0 : chainDist 0 = 0 := rfl
  have hd1 : chainDist 1 = 19/2 := rfl
  have hstop1 : stopCond chainDist [0] 0 = false := by
    show decide (chainDist 0 < chainDist 0) = false
    rw [decide_eq_false_iff_not]
    exact lt_irrefl _
  have hskip1 : skipCond chainDist (9/10) [0] 0 = false := by
    show decide ((9:ℚ)/10 < chainDist 0 / chainDist 0) = false
    rw [decide_eq_false_iff_not, hd0, div_zero]
    norm_num
  have hnc : ¬ cle chainDist 1 0 := by
    intro hcle
    rcases hcle with h | ⟨h, _⟩
    · rw [hd0, hd1] at h
      norm_num at h
    · rw [hd0, hd1] at h
      norm_num at h
  have hins : List.orderedInsert (cle chainDist) 1 [0] = [0, 1] := by
    unfold List.orderedInsert
    rw [if_neg hnc]
    rfl
  have hins' : (List.orderedInsert (cle chainDist) 1 [0]).take 3 = [0, 1] := by
    rw [hins]
    rfl
  have hstop2 : stopCond chainDist [0, 1] 1 = false := by
    show decide (chainDist 1 < chainDist 1) = false
    rw [decide_eq_false_iff_not]
    exact lt_irrefl _
  have hskip2 : skipCond chainDist (9/10) [0, 1] 1 = true := by
    show decide ((9:ℚ)/10 < chainDist 1 / chainDist 1) = true
    rw [decide_eq_true_eq, hd1, div_self (by norm_num : (19:ℚ)/2 ≠ 0)]
    norm_num
  show (searchLoop chainGraph chainDist 3 (9/10) pc (3+1) ⟨[0], [0], [0], []⟩).best = [0, 1]
  rw [searchLoop]
  rw [if_neg (by simp [hstop1]), if_neg (by simp [hskip1])]
  have hnb0 : chainGraph.nbrsOf 0 = [1] := rfl
  rw [hnb0]
  rw [List.foldl_cons, List.foldl_nil]
  rw [scoreNbr]
  rw [if_neg (by decide), if_pos (by decide)]
  rw [List.orderedInsert_nil, hins']
  rw [searchLoop]
  rw [if_neg (by simp [hstop2]), if_pos (by simp [hskip2])]
  rw [searchLoop]

/-- C3 counterexample: on the three-node chain fixture — where the entry
point is live, distances are nonnegative, every live node is reachable and
`ef_search = k = 3 = N` — `KnnSearch` under the default skip ratio `0.9`
returns only 2 results instead of `min 3 3 = 3`: the skip heuristic
rejects the expansion of node 1 and node 2 is never discovered. -/
theorem C3_counterexample :
    (KnnSearch chainGraph chainDist 3 3 (9/10) PrefetchConfig.Hardcoded 512).length ≠
      min 3 chainGraph.liveIndices.length ∧
    chainGraph.live chainGraph.entry = true ∧
    (∀ v, 0 ≤ chainDist v) ∧
    (∀ v ∈ chainGraph.liveIndices, ReachLive chainGraph v) := by
  refine ⟨?_, rfl, ?_, ?_⟩
  · unfold KnnSearch knnCandidates
    rw [chainGraph_skip_best]
    rw [show List.take 3 [0, 1] = [0, 1] from rfl, List.length_map]
    decide
  · intro v
    unfold chainDist
    split_ifs <;> norm_num
  · intro v hv
    have hli : chainGraph.liveIndices = [0, 1, 2] := by decide
    rw [hli] at hv
    have h01 : (1 : Nat) ∈ chainGraph.nbrsOf 0 := by decide
    have h12 : (2 : Nat) ∈ chainGraph.nbrsOf 1 := by decide
    simp only [List.mem_cons, List.not_mem_nil, or_false] at hv
    rcases hv with rfl | rfl | rfl
    · exact ReachLive.base
    · exact ReachLive.step ReachLive.base rfl h01
    · exact ReachLive.step (ReachLive.step ReachLive.base rfl h01) rfl h12

/-- C3 witness: with the skip heuristic disabled (`skip_ratio = 1`), the
same chain fixture returns exactly `min 3 3 = 3` results, sorted. -/
theorem C3_witness :
    ((∀ v, 0 ≤ chainDist v) ∧ chainGraph.live chainGraph.entry = true ∧
     (∀ v ∈ chainGraph.liveIndices, ReachLive chainGraph v) ∧ (3:Nat) ≤ 3) ∧
    ((KnnSearch chainGraph chainDist 3 3 1 PrefetchConfig.Hardcoded 512).length =
       min 3 chainGraph.liveIndices.length ∧
     List.Pairwise (fun a b => chainDist a < chainDist b ∨
       (chainDist a = chainDist b ∧ a < b))
       (knnCandidates chainGraph chainDist 3 3 1 PrefetchConfig.Hardcoded 512)) := by
  have hd : ∀ v, 0 ≤ chainDist v := by
    intro v
    unfold chainDist
    split_ifs <;> norm_num
  have hre : ∀ v ∈ chainGraph.liveIndices, ReachLive chainGraph v := by
    intro v hv
    have hli : chainGraph.liveIndices = [0, 1, 2] := by decide
    rw [hli] at hv
    have h01 : (1 : Nat) ∈ chainGraph.nbrsOf 0 := by decide
    have h12 : (2 : Nat) ∈ chainGraph.nbrsOf 1 := by decide
    simp only [List.mem_cons, List.not_mem_nil, or_false] at hv
    rcases hv with rfl | rfl | rfl
    · exact ReachLive.base
    · exact ReachLive.step ReachLive.base rfl h01
    · exact ReachLive.step (ReachLive.step ReachLive.base rfl h01) rfl h12
  exact ⟨⟨hd, rfl, hre, le_refl 3⟩,
    C3_knn_count_sorted chainGraph chainDist 3 3 PrefetchConfig.Hardcoded 512
      hd rfl hre (le_refl 3)⟩

end VSAG
